import Mathlib

/-!
Verification of the ArrowRedis split/read core (`bench_arrow.py`) against its
specification.  The Python source is shallowly embedded: the chunk key scheme,
the retry-with-backoff wrapper, the splitter's per-partition batch numbering
and gather loop, partition discovery (cursor scan + regex parse), and the
reader's key construction, pipeline chunking, gather reassembly and
missing-chunk handling are all translated into executable Lean definitions,
and the spec's claims are proved about those definitions.
-/

/-- The character `\x7b` (opening brace), used by the key scheme's routing tag. -/
def lbrace : Char := Char.ofNat 123

/-- The character `\x7d` (closing brace), used by the key scheme's routing tag. -/
def rbrace : Char := Char.ofNat 125

/-- Decimal digit character for a digit value `d < 10` (codepoint 48 + d). -/
def natDigitChar (d : Nat) : Char := Char.ofNat (48 + d)

/-- Fuelled decimal-rendering worker (structural recursion so that concrete
keys evaluate inside the kernel); the fuel is always sufficient below. -/
def natToDecAux : Nat → Nat → List Char
  | 0, _ => []
  | fuel + 1, n =>
      if n < 10 then [natDigitChar n]
      else natToDecAux fuel (n / 10) ++ [natDigitChar (n % 10)]

/-- Decimal rendering of a natural number as a list of digit characters,
modelling Python's `str(n)` / the digits produced by the `d` format spec. -/
def natToDec (n : Nat) : List Char := natToDecAux (n + 1) n

theorem natToDecAux_fuel : ∀ f1 f2 n : Nat, n < f1 → n < f2 →
    natToDecAux f1 n = natToDecAux f2 n := by
  intro f1
  induction f1 with
  | zero => intro f2 n h1; omega
  | succ g1 ih =>
    intro f2 n h1 h2
    cases f2 with
    | zero => omega
    | succ g2 =>
      simp only [natToDecAux]
      by_cases h : n < 10
      · simp [h]
      · simp only [h, if_false]
        have hda : n / 10 < g1 := by
          have := Nat.div_lt_self (show 0 < n by omega) (show 1 < 10 by omega)
          omega
        have hdb : n / 10 < g2 := by
          have := Nat.div_lt_self (show 0 < n by omega) (show 1 < 10 by omega)
          omega
        rw [ih g2 (n / 10) hda hdb]

/-- The defining recurrence of `natToDec`. -/
theorem natToDec_eq (n : Nat) : natToDec n =
    if n < 10 then [natDigitChar n]
    else natToDec (n / 10) ++ [natDigitChar (n % 10)] := by
  show natToDecAux (n + 1) n = _
  simp only [natToDecAux]
  by_cases h : n < 10
  · simp [h]
  · simp only [h, if_false]
    have : n / 10 < n := Nat.div_lt_self (by omega) (by omega)
    rw [natToDecAux_fuel n (n / 10 + 1) (n / 10) (by omega) (by omega)]
    rfl

/-- Reading a digit string back as a natural number, modelling Python's
`int(s)` on a digit string (used by discovery's regex group parse). -/
def decFromDigits (l : List Char) : Nat :=
  l.foldl (fun acc c => acc * 10 + (c.toNat - 48)) 0

/-- Zero-padding to a minimum field width, modelling Python's `f"{n:05d}"`
(for `w = 5`): the decimal rendering, left-padded with zeros up to width `w`;
a rendering wider than `w` is emitted in full, never truncated. -/
def padDec (w : Nat) (n : Nat) : List Char :=
  List.replicate (w - (natToDec n).length) '0' ++ natToDec n

/-- The fixed key-scheme segment between the prefix and the partition field:
`":\x7bpart="`. -/
def keySegA : List Char := ':' :: lbrace :: "part=".data

/-- The fixed key-scheme segment between the partition and batch fields:
`"\x7d:batch="`. -/
def keySegB : List Char := rbrace :: ":batch=".data

/-- Character data of a chunk key, modelling the f-string
`f"{prefix}:\x7b\x7bpart={part:05d}\x7d\x7d:batch={b_in_part:05d}"` of
`split_ipc_to_redis` (the doubled braces render as one literal brace each). -/
def keyData (pfxData : List Char) (part batch : Nat) : List Char :=
  pfxData ++ keySegA ++ padDec 5 part ++ keySegB ++ padDec 5 batch

/-- The chunk key scheme: `key(prefix, partition, batch_in_partition)`,
exactly as constructed in `split_ipc_to_redis` and `read_from_redis`. -/
def makeKey (pfx : String) (part batch : Nat) : String :=
  String.mk (keyData pfx.data part batch)

theorem natDigitChar_toNat {d : Nat} (h : d < 10) : (natDigitChar d).toNat = 48 + d := by
  interval_cases d <;> decide

theorem decFromDigits_go (n : Nat) : ∀ acc : Nat,
    (natToDec n).foldl (fun acc c => acc * 10 + (c.toNat - 48)) acc =
      acc * 10 ^ (natToDec n).length + n := by
  induction n using Nat.strong_induction_on with
  | _ n ih =>
    intro acc
    rw [natToDec_eq]
    by_cases h : n < 10
    · simp only [h, if_true]
      simp [List.foldl_cons, natDigitChar_toNat h]
    · simp only [h, if_false]
      rw [List.foldl_append, ih (n / 10) (Nat.div_lt_self (by omega) (by omega)) acc]
      simp only [List.foldl_cons, List.foldl_nil, List.length_append, List.length_cons,
        List.length_nil]
      have hd : (natDigitChar (n % 10)).toNat = 48 + n % 10 :=
        natDigitChar_toNat (Nat.mod_lt _ (by omega))
      rw [hd]
      have hmod : 10 * (n / 10) + n % 10 = n := Nat.div_add_mod n 10
      have hpow : 10 ^ ((natToDec (n / 10)).length + 1) =
          10 ^ (natToDec (n / 10)).length * 10 := by
        rw [pow_succ]
      rw [hpow]
      have : acc * (10 ^ (natToDec (n / 10)).length * 10) =
          acc * 10 ^ (natToDec (n / 10)).length * 10 := by ring
      rw [this]
      omega

theorem decFromDigits_natToDec (n : Nat) : decFromDigits (natToDec n) = n := by
  unfold decFromDigits
  rw [decFromDigits_go n 0]
  simp

theorem decFromDigits_padDec (w n : Nat) : decFromDigits (padDec w n) = n := by
  unfold decFromDigits padDec
  rw [List.foldl_append]
  have hz : ∀ k : Nat, (List.replicate k '0').foldl
      (fun acc c => acc * 10 + (c.toNat - 48)) 0 = 0 := by
    intro k
    induction k with
    | zero => rfl
    | succ k ihk => simpa [List.replicate_succ] using ihk
  rw [hz]
  exact decFromDigits_natToDec n

theorem padDec_injective {w m n : Nat} (h : padDec w m = padDec w n) : m = n := by
  have := congrArg decFromDigits h
  rwa [decFromDigits_padDec, decFromDigits_padDec] at this

theorem natToDec_isDigit (n : Nat) : ∀ c ∈ natToDec n, c.isDigit = true := by
  induction n using Nat.strong_induction_on with
  | _ n ih =>
    intro c hc
    rw [natToDec_eq] at hc
    by_cases h : n < 10
    · simp only [h, if_true, List.mem_singleton] at hc
      subst hc
      interval_cases n <;> decide
    · simp only [h, if_false, List.mem_append, List.mem_singleton] at hc
      rcases hc with hc | hc
      · exact ih (n / 10) (Nat.div_lt_self (by omega) (by omega)) c hc
      · subst hc
        have : n % 10 < 10 := Nat.mod_lt _ (by omega)
        interval_cases h10 : n % 10 <;> simp_all <;> decide

theorem padDec_isDigit (w n : Nat) : ∀ c ∈ padDec w n, c.isDigit = true := by
  intro c hc
  unfold padDec at hc
  rcases List.mem_append.mp hc with hc | hc
  · rw [List.eq_of_mem_replicate hc]; decide
  · exact natToDec_isDigit n c hc

theorem rbrace_not_digit : rbrace.isDigit = false := by decide

/-- A maximal digit run followed by the routing-tag closer is a
self-delimiting field: equality of the surrounding strings forces equality
of the run and of the remainder. -/
theorem digit_run_inj : ∀ d1 d2 t1 t2 : List Char,
    (∀ c ∈ d1, c.isDigit = true) → (∀ c ∈ d2, c.isDigit = true) →
    d1 ++ rbrace :: t1 = d2 ++ rbrace :: t2 → d1 = d2 ∧ t1 = t2 := by
  intro d1
  induction d1 with
  | nil =>
    intro d2 t1 t2 _ h2 he
    cases d2 with
    | nil => simpa using he
    | cons c d2' =>
      exfalso
      simp only [List.nil_append, List.cons_append, List.cons.injEq] at he
      have : c.isDigit = true := h2 c (List.mem_cons_self ..)
      rw [← he.1] at this
      rw [rbrace_not_digit] at this
      exact Bool.false_ne_true this
  | cons c1 d1' ih =>
    intro d2 t1 t2 h1 h2 he
    cases d2 with
    | nil =>
      exfalso
      simp only [List.cons_append, List.nil_append, List.cons.injEq] at he
      have : c1.isDigit = true := h1 c1 (List.mem_cons_self ..)
      rw [he.1, rbrace_not_digit] at this
      exact Bool.false_ne_true this
    | cons c2 d2' =>
      simp only [List.cons_append, List.cons.injEq] at he
      have hrec := ih d2' t1 t2 (fun c hc => h1 c (List.mem_cons_of_mem _ hc))
        (fun c hc => h2 c (List.mem_cons_of_mem _ hc)) he.2
      exact ⟨by rw [he.1, hrec.1], hrec.2⟩

/-- Global injectivity of the key scheme in (partition, batch), for a fixed
prefix and with no bound on the ids: the decimal fields never collide because
the batch separator starts with a non-digit. -/
theorem makeKey_injective (pfx : String) (p1 b1 p2 b2 : Nat) :
    makeKey pfx p1 b1 = makeKey pfx p2 b2 ↔ (p1 = p2 ∧ b1 = b2) := by
  constructor
  · intro h
    unfold makeKey at h
    have hdata : keyData pfx.data p1 b1 = keyData pfx.data p2 b2 := by
      injection h
    unfold keyData at hdata
    have h0 : pfx.data ++ (keySegA ++ (padDec 5 p1 ++ (keySegB ++ padDec 5 b1))) =
        pfx.data ++ (keySegA ++ (padDec 5 p2 ++ (keySegB ++ padDec 5 b2))) := by
      simpa [List.append_assoc] using hdata
    have h1 : keySegA ++ (padDec 5 p1 ++ (keySegB ++ padDec 5 b1)) =
        keySegA ++ (padDec 5 p2 ++ (keySegB ++ padDec 5 b2)) :=
      List.append_cancel_left h0
    have h2 : padDec 5 p1 ++ (keySegB ++ padDec 5 b1) =
        padDec 5 p2 ++ (keySegB ++ padDec 5 b2) :=
      List.append_cancel_left h1
    have h3 : padDec 5 p1 ++ rbrace :: (":batch=".data ++ padDec 5 b1) =
        padDec 5 p2 ++ rbrace :: (":batch=".data ++ padDec 5 b2) := by
      simpa [keySegB] using h2
    have h4 := digit_run_inj _ _ _ _ (padDec_isDigit 5 p1) (padDec_isDigit 5 p2) h3
    have hp : p1 = p2 := padDec_injective h4.1
    have hb : b1 = b2 := padDec_injective (List.append_cancel_left h4.2)
    exact ⟨hp, hb⟩
  · rintro ⟨rfl, rfl⟩
    rfl

/-- A record batch: named columns, each a list of cell values (cells are
modelled as naturals; the splitter only ever inspects the `partition`
column's row 0, all other data is carried opaquely). -/
structure RecordBatch where
  columns : List (String × List Nat)
deriving DecidableEq, Repr, Inhabited

/-- The `partition` column of a batch, modelling
`p_idx = rb.schema.get_field_index("partition")` followed by
`rb.column(p_idx)`: `none` when the field is absent (`p_idx == -1`). -/
def RecordBatch.partitionColumn (rb : RecordBatch) : Option (List Nat) :=
  (rb.columns.find? (fun c => c.1 == "partition")).map (fun c => c.2)

/-- Number of rows of a batch (the length of its first column, 0 if none). -/
def RecordBatch.numRows (rb : RecordBatch) : Nat :=
  ((rb.columns.head?).map (fun c => c.2.length)).getD 0

/-- The partition id the splitter assigns to source batch `i`:
row 0 of the `partition` column when the column exists (`none` models the
IndexError raised on an empty column), else the linear fallback
`i // batches_per_partition`. -/
def assignedPart (batchesPerPartition : Nat) (i : Nat) (rb : RecordBatch) : Option Nat :=
  match rb.partitionColumn with
  | none => some (i / batchesPerPartition)
  | some vals => vals.head?

/-- The splitter's per-partition dense numbering: walk the tagged batches in
source order, giving each one the current `next_batch_idx` counter of its
partition and bumping that counter — exactly the
`b_in_part = next_batch_idx.get(part, 0); next_batch_idx[part] = b_in_part + 1`
loop of `split_ipc_to_redis`, with the counter map as a function. -/
def numberBatches {β : Type} : List (Nat × β) → (Nat → Nat) → List (Nat × Nat × β)
  | [], _ => []
  | (p, x) :: ps, next =>
      (p, next p, x) :: numberBatches ps (fun q => if q = p then next p + 1 else next q)

/-- Partition ids of all batches from source index `i` on, as computed by the
split loop; `none` as soon as one batch's id extraction fails. -/
def partsOfFrom (bpp : Nat) : List RecordBatch → Nat → Option (List Nat)
  | [], _ => some []
  | rb :: rest, i =>
      (assignedPart bpp i rb).bind fun p =>
        (partsOfFrom bpp rest (i + 1)).map (fun ps => p :: ps)

/-- Partition ids of a whole dataset in source order. -/
def partsOf (bpp : Nat) (batches : List RecordBatch) : Option (List Nat) :=
  partsOfFrom bpp batches 0

/-- The ordered list of `SET` calls (key, encoded payload) a successful split
issues, derived from the source batches via id extraction, dense numbering,
the key scheme and the codec. -/
def splitWritesOf {P : Type} (pfx : String) (bpp : Nat) (encode : RecordBatch → P)
    (batches : List RecordBatch) : Option (List (String × P)) :=
  (partsOf bpp batches).map fun parts =>
    (numberBatches (parts.zip batches) (fun _ => 0)).map
      (fun t => (makeKey pfx t.1 t.2.1, encode t.2.2))

/-- The key-value store resulting from a list of writes (each key is written
once per split, so first-match lookup is the store's content). -/
def storeOf {P : Type} (writes : List (String × P)) : String → Option P :=
  fun k => (writes.find? (fun w => w.1 == k)).map (fun w => w.2)


/-- Dense numbering, filtered to one partition: the batch-in-partition ids
handed out for partition `p` are the consecutive run starting at the
counter's current value, paired with the batches of `p` in source order. -/
theorem numberBatches_filter {β : Type} (p : Nat) :
    ∀ (l : List (Nat × β)) (next : Nat → Nat),
      ((numberBatches l next).filter (fun t => t.1 == p)).map (fun t => t.2) =
        (List.range' (next p) ((l.map Prod.fst).count p)).zip
          ((l.filter (fun t => t.1 == p)).map (fun t => t.2)) := by
  intro l
  induction l with
  | nil => intro next; simp [numberBatches]
  | cons hd tl ih =>
    intro next
    obtain ⟨q, x⟩ := hd
    by_cases hq : q = p
    · subst hq
      simp only [numberBatches, List.filter_cons, List.map_cons, List.count_cons,
        beq_self_eq_true, if_true]
      rw [ih]
      simp only [if_pos rfl, List.range'_succ, List.zip_cons_cons]
      simp
    · have hbq : (q == p) = false := beq_eq_false_iff_ne.mpr hq
      simp only [numberBatches, List.filter_cons, List.map_cons, List.count_cons, hbq,
        Bool.false_eq_true, if_false, cond_false]
      rw [ih]
      simp [if_neg (Ne.symm hq)]

theorem partsOfFrom_length (bpp : Nat) :
    ∀ (batches : List RecordBatch) (i : Nat) (parts : List Nat),
      partsOfFrom bpp batches i = some parts → parts.length = batches.length := by
  intro batches
  induction batches with
  | nil =>
    intro i parts h
    simp only [partsOfFrom, Option.some.injEq] at h
    simp [← h]
  | cons rb rest ih =>
    intro i parts h
    simp only [partsOfFrom, Option.bind_eq_some, Option.map_eq_some'] at h
    obtain ⟨p, _, ps, hps, rfl⟩ := h
    simp [ih (i + 1) ps hps]

theorem count_eq_filter_length {β : Type} (p : Nat) (l : List (Nat × β)) :
    (l.map Prod.fst).count p = (l.filter (fun t => t.1 == p)).length := by
  rw [List.count, List.countP_map, List.countP_eq_length_filter]
  congr 1

theorem splitWritesOf_eq {P : Type} (pfx : String) (bpp : Nat) (encode : RecordBatch → P)
    (batches : List RecordBatch) (parts : List Nat) (hp : partsOf bpp batches = some parts) :
    splitWritesOf pfx bpp encode batches =
      some ((numberBatches (parts.zip batches) (fun _ => 0)).map
        (fun t => (makeKey pfx t.1 t.2.1, encode t.2.2))) := by
  unfold splitWritesOf
  rw [hp]
  rfl

/-- C3 (dense numbering): after a split, the set of keys written for a
partition `p` is exactly the keys for batch-in-partition ids `0..N-1`, where
`N` is the number of source batches mapping to `p` — dense, starting at 0,
no index skipped, for any interleaving of partitions in the source stream. -/
theorem split_write_set_dense {P : Type} (pfx : String) (bpp : Nat)
    (encode : RecordBatch → P) (batches : List RecordBatch) (parts : List Nat)
    (writes : List (String × P)) (p : Nat)
    (hp : partsOf bpp batches = some parts)
    (hw : splitWritesOf pfx bpp encode batches = some writes) :
    ∀ b : Nat, makeKey pfx p b ∈ writes.map Prod.fst ↔ b < parts.count p := by
  rw [splitWritesOf_eq pfx bpp encode batches parts hp, Option.some.injEq] at hw
  subst hw
  have hlen : parts.length = batches.length := partsOfFrom_length bpp batches 0 parts hp
  have htag : (parts.zip batches).map Prod.fst = parts :=
    List.map_fst_zip parts batches (le_of_eq hlen)
  have hfilt := numberBatches_filter (β := RecordBatch) p (parts.zip batches) (fun _ => 0)
  have hcnt : ((parts.zip batches).map Prod.fst).count p = parts.count p := by rw [htag]
  rw [hcnt] at hfilt
  have hflen : ((parts.zip batches).filter (fun t => t.1 == p)).length = parts.count p := by
    rw [← hcnt, count_eq_filter_length]
  intro b
  rw [List.map_map]
  constructor
  · intro hmem
    obtain ⟨t, ht, hkey⟩ := List.mem_map.mp hmem
    obtain ⟨tp, tb, tx⟩ := t
    simp only [Function.comp] at hkey
    obtain ⟨rfl, rfl⟩ := (makeKey_injective pfx tp tb p b).mp hkey
    have htf : (tp, tb, tx) ∈
        (numberBatches (parts.zip batches) (fun _ => 0)).filter (fun t => t.1 == tp) :=
      List.mem_filter.mpr ⟨ht, by simp⟩
    have h2 : ((tp, tb, tx).2 : Nat × RecordBatch) ∈
        ((numberBatches (parts.zip batches) (fun _ => 0)).filter
          (fun t => t.1 == tp)).map (fun t => t.2) :=
      List.mem_map_of_mem _ htf
    rw [hfilt] at h2
    have h3 := List.of_mem_zip h2
    have h4 := List.mem_range'_1.mp h3.1
    omega
  · intro hb
    have hzlen : ((List.range' 0 (parts.count p)).zip
        (((parts.zip batches).filter (fun t => t.1 == p)).map (fun t => t.2))).length =
          parts.count p := by
      rw [List.length_zip, List.length_range', List.length_map, hflen]
      exact Nat.min_self _
    have hbz : b < ((List.range' 0 (parts.count p)).zip
        (((parts.zip batches).filter (fun t => t.1 == p)).map (fun t => t.2))).length := by
      omega
    have helem := List.getElem_mem hbz
    rw [List.getElem_zip] at helem
    have hblt : b < (List.range' 0 (parts.count p)).length := by
      rw [List.length_range']
      omega
    have hrge : (List.range' 0 (parts.count p))[b] = b := by simp
    rw [hrge] at helem
    rw [← hfilt] at helem
    obtain ⟨t, htf, ht2⟩ := List.mem_map.mp helem
    have htm := List.mem_filter.mp htf
    have htp : t.1 = p := by
      have := htm.2
      simpa using this
    apply List.mem_map.mpr
    refine ⟨t, htm.1, ?_⟩
    simp only [Function.comp]
    rw [htp]
    have : t.2.1 = b := by rw [ht2]
    rw [this]

theorem natToDec_length_le : ∀ (n k : Nat), n < 10 ^ k → 1 ≤ k → (natToDec n).length ≤ k := by
  intro n
  induction n using Nat.strong_induction_on with
  | _ n ih =>
    intro k hnk hk
    rw [natToDec_eq]
    by_cases h : n < 10
    · simp only [h, if_true, List.length_cons, List.length_nil]
      omega
    · simp only [h, if_false, List.length_append, List.length_cons,
        List.length_nil]
      have hk2 : 2 ≤ k := by
        by_contra hc
        have : k = 1 := by omega
        subst this
        simp at hnk
        omega
      have hdiv : n / 10 < 10 ^ (k - 1) := by
        rw [Nat.div_lt_iff_lt_mul (by omega)]
        have : 10 ^ (k - 1) * 10 = 10 ^ k := by
          rw [← pow_succ]
          congr 1
          omega
        omega
      have := ih (n / 10) (Nat.div_lt_self (by omega) (by omega)) (k - 1) hdiv (by omega)
      omega

theorem natToDec_length_pos (n : Nat) : 1 ≤ (natToDec n).length := by
  rw [natToDec_eq]
  by_cases h : n < 10
  · simp [h]
  · simp [h]

theorem natToDec_length_gt : ∀ (n k : Nat), 10 ^ k ≤ n → k < (natToDec n).length := by
  intro n
  induction n using Nat.strong_induction_on with
  | _ n ih =>
    intro k hkn
    by_cases hk : k = 0
    · subst hk
      exact natToDec_length_pos n
    · have h10 : ¬ n < 10 := by
        have h1 : (10 : Nat) ^ 1 ≤ 10 ^ k := Nat.pow_le_pow_right (by omega) (by omega)
        simp at h1
        omega
      rw [natToDec_eq]
      simp only [h10, if_false, List.length_append, List.length_cons,
        List.length_nil]
      have hdiv : 10 ^ (k - 1) ≤ n / 10 := by
        rw [Nat.le_div_iff_mul_le (by omega)]
        have : 10 ^ (k - 1) * 10 = 10 ^ k := by
          rw [← pow_succ]
          congr 1
          omega
        omega
      have := ih (n / 10) (Nat.div_lt_self (by omega) (by omega)) (k - 1) hdiv
      omega

theorem padDec_length {w n : Nat} (h : (natToDec n).length ≤ w) : (padDec w n).length = w := by
  unfold padDec
  rw [List.length_append, List.length_replicate]
  omega

theorem padDec_length_5 {n : Nat} (h : n ≤ 99999) : (padDec 5 n).length = 5 :=
  padDec_length (natToDec_length_le n 5 (by omega) (by omega))

/-- C4: for ids within the 5-digit width, the constructed key is bit-exactly
`prefix ++ ":\x7bpart=" ++ PPPPP ++ "\x7d:batch=" ++ BBBBB` with both fields
zero-padded to exactly 5 digits, and two keys under one prefix are equal iff
their (partition, batch) addresses are equal. -/
theorem key_format_exact_and_injective (pfx : String) (p1 b1 p2 b2 : Nat)
    (hp1 : p1 ≤ 99999) (hb1 : b1 ≤ 99999) (hp2 : p2 ≤ 99999) (hb2 : b2 ≤ 99999) :
    (makeKey pfx p1 b1).data =
        pfx.data ++ keySegA ++ padDec 5 p1 ++ keySegB ++ padDec 5 b1
      ∧ (padDec 5 p1).length = 5 ∧ (padDec 5 b1).length = 5
      ∧ (makeKey pfx p1 b1 = makeKey pfx p2 b2 ↔ (p1, b1) = (p2, b2)) := by
  refine ⟨rfl, padDec_length_5 hp1, padDec_length_5 hb1, ?_⟩
  rw [makeKey_injective, Prod.mk.injEq]

/-- C4 witness. -/
theorem key_format_exact_and_injective_witness :
    (42 ≤ 99999 ∧ 7 ≤ 99999 ∧ 99999 ≤ 99999 ∧ 0 ≤ 99999) ∧
      ((makeKey "demo:v1" 42 7).data =
          "demo:v1".data ++ keySegA ++ padDec 5 42 ++ keySegB ++ padDec 5 7
        ∧ (padDec 5 42).length = 5 ∧ (padDec 5 7).length = 5
        ∧ (makeKey "demo:v1" 42 7 = makeKey "demo:v1" 99999 0 ↔ (42, 7) = (99999, 0))) :=
  ⟨⟨by decide, by decide, by decide, by decide⟩,
    key_format_exact_and_injective "demo:v1" 42 7 99999 0
      (by decide) (by decide) (by decide) (by decide)⟩

/-- C9 counterexample: with a partition id one past the 5-digit field width
(100000), the split pipeline raises no addressing error at all — it computes
a key for that id and proceeds to the write: the write list is produced and
contains the (6-digit-wide) key. The scheme does not "fail loudly". -/
theorem key_width_overflow_not_loud :
    splitWritesOf "t" 1 (fun rb => rb.numRows) [⟨[("partition", [100000])]⟩] =
        some [(makeKey "t" 100000 0, 1)]
      ∧ (padDec 5 100000).length = 6 := by
  constructor
  · rfl
  · decide

/-- C9 amended: an id wider than the 5-digit field is rendered in full
(strictly more than 5 characters, never truncated) and no addressing error is
raised; the key map nevertheless stays injective over ALL ids, so width
overflow can never cause two addresses to collide. -/
theorem key_width_overflow_never_collides (pfx : String) (p1 b1 p2 b2 : Nat) :
    (makeKey pfx p1 b1 = makeKey pfx p2 b2 ↔ (p1, b1) = (p2, b2))
      ∧ (99999 < p1 → 5 < (padDec 5 p1).length)
      ∧ (99999 < b1 → 5 < (padDec 5 b1).length) := by
  refine ⟨by rw [makeKey_injective, Prod.mk.injEq], ?_, ?_⟩
  · intro h
    have h6 : 5 < (natToDec p1).length := natToDec_length_gt p1 5 (by omega)
    unfold padDec
    rw [List.length_append, List.length_replicate]
    omega
  · intro h
    have h6 : 5 < (natToDec b1).length := natToDec_length_gt b1 5 (by omega)
    unfold padDec
    rw [List.length_append, List.length_replicate]
    omega

/-- One run of `retry_with_backoff`'s `for attempt in range(max_retries)`
loop, starting at `attempt` with `remaining` iterations left.  `f a` is the
outcome of the wrapped call at attempt `a` (the call trace).  Returns the
final outcome, the list of back-off sleeps performed between attempts, and
the number of attempts actually made.  The outcome `.error none` models the
trailing `raise RuntimeError("Should not reach here")`, reachable only with
`max_retries == 0`; `.error (some e)` models the bare `raise` that re-raises
the last attempt's failure (the WriteError surfaced to the caller). -/
def retryGo {E A : Type} (f : Nat → Except E A) (baseDelay maxDelay : ℚ) :
    Nat → Nat → Except (Option E) A × List ℚ × Nat
  | _, 0 => (.error none, [], 0)
  | attempt, remaining + 1 =>
      match f attempt with
      | .ok a => (.ok a, [], 1)
      | .error e =>
          if remaining = 0 then (.error (some e), [], 1)
          else
            let d := min (baseDelay * 2 ^ attempt) maxDelay
            let r := retryGo f baseDelay maxDelay (attempt + 1) remaining
            (r.1, d :: r.2.1, r.2.2 + 1)

/-- `retry_with_backoff(func, max_retries, base_delay, max_delay)` with the
wrapped call's outcomes given per attempt by `f`. -/
def retryWithBackoff {E A : Type} (f : Nat → Except E A) (maxRetries : Nat)
    (baseDelay maxDelay : ℚ) : Except (Option E) A × List ℚ × Nat :=
  retryGo f baseDelay maxDelay 0 maxRetries

theorem retryGo_allFail {E A : Type} (es : Nat → E) (b M : ℚ) :
    ∀ (remaining attempt : Nat), 1 ≤ remaining →
      retryGo (A := A) (fun a => .error (es a)) b M attempt remaining =
        (.error (some (es (attempt + remaining - 1))),
         (List.range' attempt (remaining - 1)).map (fun a => min (b * 2 ^ a) M),
         remaining) := by
  intro remaining
  induction remaining with
  | zero => intro attempt h; omega
  | succ rem ih =>
    intro attempt _
    rw [retryGo]
    by_cases hr : rem = 0
    · subst hr
      simp
    · simp only [hr, if_false]
      rw [ih (attempt + 1) (by omega)]
      have h1 : attempt + 1 + rem - 1 = attempt + (rem + 1) - 1 := by omega
      have h2 : rem + 1 - 1 = (rem - 1) + 1 := by omega
      rw [h1, h2, List.range'_succ, List.map_cons]

theorem sum_map_list_range (f : Nat → ℚ) : ∀ n : Nat,
    ((List.range n).map f).sum = ∑ a ∈ Finset.range n, f a := by
  intro n
  induction n with
  | zero => simp
  | succ n ih =>
    rw [List.range_succ, List.map_append, List.sum_append, Finset.sum_range_succ, ih]
    simp

/-- C6 (retry exhaustion): when the wrapped call fails on every attempt,
`retry_with_backoff` makes exactly `max_retries` attempts, sleeps
`min(base_delay * 2 ^ attempt, max_delay)` between consecutive attempts
(attempts `0 .. max_retries - 2`), so the total sleep is the sum of that
capped schedule, and finally propagates the last attempt's failure. -/
theorem retry_exhaustion {E A : Type} (es : Nat → E) (m : Nat) (b M : ℚ)
    (hm : 1 ≤ m) :
    retryWithBackoff (A := A) (fun a => .error (es a)) m b M =
        (.error (some (es (m - 1))),
         (List.range (m - 1)).map (fun a => min (b * 2 ^ a) M), m)
      ∧ (((List.range (m - 1)).map (fun a => min (b * 2 ^ a) M)).sum =
          ∑ a ∈ Finset.range (m - 1), min (b * 2 ^ a) M) := by
  constructor
  · unfold retryWithBackoff
    rw [retryGo_allFail es b M m 0 hm]
    rw [List.range_eq_range']
    have h0 : 0 + m - 1 = m - 1 := by omega
    rw [h0]
  · rw [sum_map_list_range (fun a => min (b * 2 ^ a) M) (m - 1)]

/-- C6 witness. -/
theorem retry_exhaustion_witness :
    (1 ≤ 3) ∧
      (retryWithBackoff (fun a => (Except.error a : Except Nat Unit)) 3 1 60 =
          (Except.error (some 2), (List.range 2).map (fun a => min ((1 : ℚ) * 2 ^ a) 60), 3)
        ∧ (((List.range 2).map (fun a => min ((1 : ℚ) * 2 ^ a) 60)).sum =
            ∑ a ∈ Finset.range 2, min ((1 : ℚ) * 2 ^ a) 60)) :=
  ⟨by norm_num, retry_exhaustion (fun a => a) 3 1 60 (by norm_num)⟩

/-- Fuelled worker for pipeline chunking (structural so concrete reads
evaluate in the kernel); fuel = list length always suffices. -/
def chunkListAux {α : Type} (sz : Nat) : Nat → List α → List (List α)
  | 0, _ => []
  | _, [] => []
  | fuel + 1, x :: xs => (x :: xs).take sz :: chunkListAux sz fuel ((x :: xs).drop sz)

/-- Slicing a list into consecutive runs of `sz` elements, modelling the
comprehension `[part_keys[i:i+pipeline] for i in range(0, len(part_keys),
pipeline)]` of `read_from_redis` (successive slices `l[i:i+sz]` stepping by
`sz`; `sz = 0` raises ValueError in Python and yields `[]` here). -/
def chunkList {α : Type} (sz : Nat) (l : List α) : List (List α) :=
  if sz = 0 then [] else chunkListAux sz l.length l

theorem chunkListAux_flatten {α : Type} (sz : Nat) (hsz : 1 ≤ sz) :
    ∀ (fuel : Nat) (l : List α), l.length ≤ fuel →
      (chunkListAux sz fuel l).flatten = l := by
  intro fuel
  induction fuel with
  | zero =>
    intro l hl
    have : l = [] := List.eq_nil_of_length_eq_zero (by omega)
    subst this
    rfl
  | succ f ih =>
    intro l hl
    cases l with
    | nil => rfl
    | cons x xs =>
      simp only [chunkListAux, List.flatten_cons]
      rw [ih ((x :: xs).drop sz) (by rw [List.length_drop]; omega)]
      exact List.take_append_drop sz (x :: xs)

theorem chunkList_flatten {α : Type} (sz : Nat) (hsz : 1 ≤ sz) (l : List α) :
    (chunkList sz l).flatten = l := by
  unfold chunkList
  rw [if_neg (by omega)]
  exact chunkListAux_flatten sz hsz l.length l (le_refl _)

/-- The full ordered key list of a read request: partitions in request order,
batches `0 .. batches_per_part - 1` within each partition — the order in
which `read_from_redis` constructs keys before chunking. -/
def orderedKeys (pfx : String) (partitions : List Nat) (bpp : Nat) : List String :=
  partitions.flatMap (fun p => (List.range bpp).map (fun b => makeKey pfx p b))

/-- `all_chunks`: for each requested partition, the partition's key list cut
into fetch groups of at most `pipeline` keys, accumulated in request order. -/
def buildChunks (pfx : String) (partitions : List Nat) (bpp pipeline : Nat) :
    List (List String) :=
  partitions.flatMap
    (fun p => chunkList pipeline ((List.range bpp).map (fun b => makeKey pfx p b)))

theorem buildChunks_flatten (pfx : String) (partitions : List Nat) (bpp pipeline : Nat)
    (hsz : 1 ≤ pipeline) :
    (buildChunks pfx partitions bpp pipeline).flatten = orderedKeys pfx partitions bpp := by
  unfold buildChunks orderedKeys
  induction partitions with
  | nil => rfl
  | cons p ps ih =>
    rw [List.flatMap_cons, List.flatMap_cons, List.flatten_append, ih,
      chunkList_flatten pipeline hsz]

/-- Result of one read: the decoded row blocks in output order, and the
reported present / total chunk counts (the log line
`Fetched {len(parse_inputs)}/{len(results)} present chunks`). -/
structure ReadResult where
  blocks : List RecordBatch
  presentCount : Nat
  totalCount : Nat
deriving DecidableEq, Repr

/-- `read_from_redis` over a store: build per-partition keys, chunk them by
`pipeline`, fetch each group by one multi-get (`None` per missing key),
flatten the group results in submission order, drop the missing payloads
(`[buf for buf in results if buf]`; encoded payloads are non-empty, so
truthiness is presence), decode the present ones and concatenate in that
order.  Connection handling is external to the model. -/
def readFromRedis {P : Type} (decode : P → RecordBatch) (store : String → Option P)
    (pfx : String) (partitions : List Nat) (bpp pipeline : Nat) : ReadResult :=
  let chunks := buildChunks pfx partitions bpp pipeline
  let valsLists := chunks.map (fun g => g.map store)
  let results := valsLists.flatten
  let parseInputs := results.filterMap id
  { blocks := parseInputs.map decode
    presentCount := parseInputs.length
    totalCount := results.length }

/-- What the reader computes, in closed form: the decoded present payloads
of the ordered key list, plus present/total counts. -/
theorem readFromRedis_spec {P : Type} (decode : P → RecordBatch)
    (store : String → Option P) (pfx : String) (partitions : List Nat)
    (bpp pipeline : Nat) (hsz : 1 ≤ pipeline) :
    readFromRedis decode store pfx partitions bpp pipeline =
      { blocks := (orderedKeys pfx partitions bpp).filterMap
          (fun k => (store k).map decode)
        presentCount := ((orderedKeys pfx partitions bpp).filterMap store).length
        totalCount := (orderedKeys pfx partitions bpp).length } := by
  simp only [readFromRedis]
  have hres : ((buildChunks pfx partitions bpp pipeline).map
      (fun g => g.map store)).flatten = (orderedKeys pfx partitions bpp).map store := by
    rw [← List.map_flatten, buildChunks_flatten pfx partitions bpp pipeline hsz]
  rw [hres, List.filterMap_map, List.map_filterMap, List.length_map]
  rfl

/-- C5 (missing-chunk tolerance): a read some of whose constructed keys were
never written still returns a result — the fetch yields `None` markers, never
an error — whose blocks are exactly the decoded payloads of the present keys
in key order; the reported present count is the number of present keys and
the reported total the number of constructed keys, so the present-vs-missing
split is reported. -/
theorem read_tolerates_missing {P : Type} (decode : P → RecordBatch)
    (store : String → Option P) (pfx : String) (partitions : List Nat)
    (bpp pipeline : Nat) (hsz : 1 ≤ pipeline) :
    (readFromRedis decode store pfx partitions bpp pipeline).blocks =
        (orderedKeys pfx partitions bpp).filterMap (fun k => (store k).map decode)
      ∧ (readFromRedis decode store pfx partitions bpp pipeline).presentCount =
          ((orderedKeys pfx partitions bpp).filterMap store).length
      ∧ (readFromRedis decode store pfx partitions bpp pipeline).totalCount =
          (orderedKeys pfx partitions bpp).length := by
  rw [readFromRedis_spec decode store pfx partitions bpp pipeline hsz]
  exact ⟨rfl, rfl, rfl⟩

/-- Decoder used by the concrete witnesses: one single-column block. -/
def wDecode (n : Nat) : RecordBatch := ⟨[("v", [n])]⟩

/-- Store used by the concrete witnesses: three of the four keys of the
request `partitions = [0, 1], batches_per_part = 2` are present; the key
for (partition 1, batch 0) was never written. -/
def wStore : String → Option Nat := fun k =>
  if k = makeKey "d" 0 0 then some 10
  else if k = makeKey "d" 0 1 then some 11
  else if k = makeKey "d" 1 1 then some 13
  else none

/-- C5 witness. -/
theorem read_tolerates_missing_witness :
    (1 ≤ 2) ∧
      ((readFromRedis wDecode wStore "d" [0, 1] 2 2).blocks =
          (orderedKeys "d" [0, 1] 2).filterMap (fun k => (wStore k).map wDecode)
        ∧ (readFromRedis wDecode wStore "d" [0, 1] 2 2).presentCount =
            ((orderedKeys "d" [0, 1] 2).filterMap wStore).length
        ∧ (readFromRedis wDecode wStore "d" [0, 1] 2 2).totalCount =
            (orderedKeys "d" [0, 1] 2).length) :=
  ⟨by decide, read_tolerates_missing wDecode wStore "d" [0, 1] 2 2 (by decide)⟩

/-- Slot-filling model of `asyncio.gather`: `tasks` lists each task's result
by submission index; `order` is the order in which tasks complete; each
completion stores its result into its own slot, whatever the order. -/
def completeInto {α : Type} (tasks : List α) (order : List Nat) : Nat → Option α :=
  order.foldl (fun slots i => fun j => if j = i then tasks[i]? else slots j)
    (fun _ => none)

/-- Reading the gather slots back in submission order once the given
completion order has run (a never-completed slot yields the default). -/
def gatherInOrder {α : Type} (dflt : α) (tasks : List α) (order : List Nat) : List α :=
  (List.range tasks.length).map (fun i => (completeInto tasks order i).getD dflt)

theorem completeInto_foldl {α : Type} (tasks : List α) :
    ∀ (order : List Nat) (init : Nat → Option α) (j : Nat),
      (order.foldl (fun slots i => fun j => if j = i then tasks[i]? else slots j) init) j =
        if j ∈ order then tasks[j]? else init j := by
  intro order
  induction order with
  | nil => intro init j; simp
  | cons x xs ih =>
    intro init j
    rw [List.foldl_cons, ih]
    by_cases hx : j ∈ xs
    · simp [hx, List.mem_cons]
    · by_cases hj : j = x
      · subst hj
        simp [hx]
      · simp [hx, hj, List.mem_cons]

theorem completeInto_eq {α : Type} (tasks : List α) (order : List Nat) (j : Nat) :
    completeInto tasks order j = if j ∈ order then tasks[j]? else none :=
  completeInto_foldl tasks order (fun _ => none) j

theorem map_range_getElem {α : Type} (dflt : α) :
    ∀ l : List α, (List.range l.length).map (fun i => (l[i]?).getD dflt) = l := by
  intro l
  induction l with
  | nil => rfl
  | cons x xs ih =>
    simp only [List.length_cons, List.range_succ_eq_map, List.map_cons,
      List.getElem?_cons_zero, Option.getD_some, List.map_map]
    congr 1
    have : ((fun i => ((x :: xs)[i]?).getD dflt) ∘ Nat.succ) =
        (fun i => (xs[i]?).getD dflt) := by
      funext i
      simp [Function.comp, List.getElem?_cons_succ]
    rw [this, ih]

/-- A completion order that is a permutation of the task indices leaves the
gathered results in submission order: `gather` is completion-order-blind. -/
theorem gatherInOrder_perm {α : Type} (dflt : α) (tasks : List α) (order : List Nat)
    (hperm : order.Perm (List.range tasks.length)) :
    gatherInOrder dflt tasks order = tasks := by
  unfold gatherInOrder
  have hmem : ∀ i, i < tasks.length → i ∈ order := by
    intro i hi
    rw [hperm.mem_iff, List.mem_range]
    exact hi
  have : ∀ i ∈ List.range tasks.length,
      (completeInto tasks order i).getD dflt = (tasks[i]?).getD dflt := by
    intro i hi
    rw [completeInto_eq, if_pos (hmem i (List.mem_range.mp hi))]
  rw [List.map_congr_left this]
  exact map_range_getElem dflt tasks

/-- `read_from_redis` with explicit completion orders: the fetch groups
complete in the order `fetchOrder` (each group's multi-get result lands in
its slot), then the decode tasks of the present payloads complete in the
order `decodeOrder`; both gathers are read back in submission order, which
is what `asyncio.gather` returns. -/
def readFromRedisScheduled {P : Type} (decode : P → RecordBatch)
    (store : String → Option P) (pfx : String) (partitions : List Nat)
    (bpp pipeline : Nat) (fetchOrder decodeOrder : List Nat) : ReadResult :=
  let chunks := buildChunks pfx partitions bpp pipeline
  let fetchTasks := chunks.map (fun g => g.map store)
  let valsLists := gatherInOrder [] fetchTasks fetchOrder
  let results := valsLists.flatten
  let parseInputs := results.filterMap id
  let blocks := gatherInOrder ⟨[]⟩ (parseInputs.map decode) decodeOrder
  { blocks := blocks
    presentCount := parseInputs.length
    totalCount := results.length }

/-- C2 (ordering under concurrency): for any completion order of the fetch
groups and of the decode tasks — any permutation of their submission indices,
including reverse order — the read returns exactly what the sequential read
returns, and its row blocks appear in request order: partitions in the order
given in the request and batches `0..batches_per_part-1` within each. -/
theorem read_order_under_concurrency {P : Type} (decode : P → RecordBatch)
    (store : String → Option P) (pfx : String) (partitions : List Nat)
    (bpp pipeline : Nat) (fetchOrder decodeOrder : List Nat)
    (hsz : 1 ≤ pipeline)
    (hf : fetchOrder.Perm (List.range (buildChunks pfx partitions bpp pipeline).length))
    (hd : decodeOrder.Perm (List.range
      ((orderedKeys pfx partitions bpp).filterMap store).length)) :
    readFromRedisScheduled decode store pfx partitions bpp pipeline fetchOrder decodeOrder =
        readFromRedis decode store pfx partitions bpp pipeline
      ∧ (readFromRedis decode store pfx partitions bpp pipeline).blocks =
          (orderedKeys pfx partitions bpp).filterMap (fun k => (store k).map decode) := by
  have hspec := readFromRedis_spec decode store pfx partitions bpp pipeline hsz
  constructor
  · simp only [readFromRedisScheduled]
    rw [gatherInOrder_perm [] _ fetchOrder (by rwa [List.length_map])]
    have hres : ((buildChunks pfx partitions bpp pipeline).map
        (fun g => g.map store)).flatten = (orderedKeys pfx partitions bpp).map store := by
      rw [← List.map_flatten, buildChunks_flatten pfx partitions bpp pipeline hsz]
    rw [hres, List.filterMap_map]
    rw [gatherInOrder_perm (RecordBatch.mk [])
      ((List.filterMap (id ∘ store) (orderedKeys pfx partitions bpp)).map decode)
      decodeOrder (by rw [List.length_map]; exact hd)]
    rw [hspec]
    rw [List.map_filterMap, List.length_map]
    rfl
  · rw [hspec]

/-- C2 witness: fetch groups completing in reverse submission order and
decode tasks completing in reverse submission order still reassemble in
request order. -/
theorem read_order_under_concurrency_witness :
    ((1 : Nat) ≤ 1
      ∧ ([3, 2, 1, 0] : List Nat).Perm
          (List.range (buildChunks "d" [0, 1] 2 1).length)
      ∧ ([2, 1, 0] : List Nat).Perm
          (List.range ((orderedKeys "d" [0, 1] 2).filterMap wStore).length))
    ∧ (readFromRedisScheduled wDecode wStore "d" [0, 1] 2 1 [3, 2, 1, 0] [2, 1, 0] =
          readFromRedis wDecode wStore "d" [0, 1] 2 1
        ∧ (readFromRedis wDecode wStore "d" [0, 1] 2 1).blocks =
            (orderedKeys "d" [0, 1] 2).filterMap (fun k => (wStore k).map wDecode)) :=
  ⟨⟨by decide, by decide, by decide⟩,
    read_order_under_concurrency wDecode wStore "d" [0, 1] 2 1 [3, 2, 1, 0] [2, 1, 0]
      (by decide) (by decide) (by decide)⟩

/-- Interleaved three-batch dataset used by the dense-numbering witness:
partitions arrive in the order 1, 0, 1. -/
def wBatchesA : List RecordBatch :=
  [⟨[("partition", [1, 1]), ("x", [5, 6])]⟩, ⟨[("partition", [0])]⟩,
    ⟨[("partition", [1])]⟩]

/-- C3 witness. -/
theorem split_write_set_dense_witness :
    (partsOf 2 wBatchesA = some [1, 0, 1]
      ∧ splitWritesOf "d" 2 RecordBatch.numRows wBatchesA =
          some [(makeKey "d" 1 0, 2), (makeKey "d" 0 0, 1), (makeKey "d" 1 1, 1)])
    ∧ (makeKey "d" 1 1 ∈
          ([(makeKey "d" 1 0, 2), (makeKey "d" 0 0, 1), (makeKey "d" 1 1, 1)]
            : List (String × Nat)).map Prod.fst
        ↔ 1 < ([1, 0, 1] : List Nat).count 1) :=
  ⟨⟨by decide, by decide⟩,
    split_write_set_dense "d" 2 RecordBatch.numRows wBatchesA [1, 0, 1]
      [(makeKey "d" 1 0, 2), (makeKey "d" 0 0, 1), (makeKey "d" 1 1, 1)] 1
      (by decide) (by decide) 1⟩

/-- C10 (row-0 addressing): when a source batch carries a `partition` column,
the id the splitter assigns is the value in row 0 of that column alone; the
remaining rows (and all other columns) never influence the assigned address —
two batches with the same row-0 value get the same id, that value. -/
theorem assignedPart_row_zero_only (bpp i : Nat) (rb1 rb2 : RecordBatch)
    (v : Nat) (t1 t2 : List Nat)
    (h1 : rb1.partitionColumn = some (v :: t1))
    (h2 : rb2.partitionColumn = some (v :: t2)) :
    assignedPart bpp i rb1 = some v ∧ assignedPart bpp i rb2 = some v := by
  unfold assignedPart
  rw [h1, h2]
  exact ⟨rfl, rfl⟩

/-- C10 witness: a batch whose partition column holds mixed values 7, 1, 2 is
addressed by its first row (7), exactly like a batch whose column reads 7, 9. -/
theorem assignedPart_row_zero_only_witness :
    ((RecordBatch.mk [("partition", [7, 1, 2])]).partitionColumn = some (7 :: [1, 2])
      ∧ (RecordBatch.mk [("partition", [7, 9]), ("y", [0, 0])]).partitionColumn =
          some (7 :: [9]))
    ∧ (assignedPart 4 0 (RecordBatch.mk [("partition", [7, 1, 2])]) = some 7
      ∧ assignedPart 4 0 (RecordBatch.mk [("partition", [7, 9]), ("y", [0, 0])]) = some 7) :=
  ⟨⟨by decide, by decide⟩,
    assignedPart_row_zero_only 4 0 (RecordBatch.mk [("partition", [7, 1, 2])])
      (RecordBatch.mk [("partition", [7, 9]), ("y", [0, 0])]) 7 [1, 2] [9]
      (by decide) (by decide)⟩

/-- Attempted match of the pattern `\x7bpart=(\d+)\x7d` anchored at the head
of `l`: the literal `"\x7bpart="`, a non-empty maximal digit run, then
`"\x7d"` (the greedy `\d+` cannot backtrack successfully past a maximal run,
since the following character would then be a digit, not `\x7d`); yields the
run parsed as an integer. -/
def matchPartAt (l : List Char) : Option Nat :=
  if l.take 6 = lbrace :: "part=".data then
    if ((l.drop 6).takeWhile Char.isDigit).isEmpty then none
    else if ((l.drop 6).dropWhile Char.isDigit).head? = some rbrace then
      some (decFromDigits ((l.drop 6).takeWhile Char.isDigit))
    else none
  else none

/-- `re.search(r'\x7bpart=(\d+)\x7d', key)` followed by `int(match.group(1))`
in `discover_partitions`: try the anchored match at each position, left to
right, returning the first hit. -/
def searchPartId : List Char → Option Nat
  | [] => none
  | c :: rest =>
      match matchPartAt (c :: rest) with
      | some n => some n
      | none => searchPartId rest

/-- `discover_partitions`: walk the scan pages as the cursor loop does,
parse every key of every page, accumulate the hits into a set (`set.add`),
and return the set in ascending order (`sorted(partitions)`).  `pages` is
the sequence of key pages the cursor yields. -/
def discoverPartitions (pages : List (List String)) : List Nat :=
  List.insertionSort (· ≤ ·)
    (pages.foldl (fun acc page =>
      page.foldl (fun acc2 k =>
        match searchPartId k.data with
        | some p => if p ∈ acc2 then acc2 else p :: acc2
        | none => acc2) acc) [])

theorem matchPartAt_not_lbrace {c : Char} (l : List Char) (hc : c ≠ lbrace) :
    matchPartAt (c :: l) = none := by
  unfold matchPartAt
  rw [if_neg]
  intro hcon
  rw [List.take_cons (by omega)] at hcon
  exact hc (List.head_eq_of_cons_eq hcon)

theorem takeWhile_digit_run (d : List Char) (x : Char) (t : List Char)
    (hd : ∀ c ∈ d, c.isDigit = true) (hx : x.isDigit = false) :
    (d ++ x :: t).takeWhile Char.isDigit = d
      ∧ (d ++ x :: t).dropWhile Char.isDigit = x :: t := by
  induction d with
  | nil =>
    simp only [List.nil_append, List.takeWhile_cons, List.dropWhile_cons, hx]
    simp
  | cons c cs ih =>
    have hc : c.isDigit = true := hd c (List.mem_cons_self ..)
    have ihr := ih (fun e he => hd e (List.mem_cons_of_mem _ he))
    simp only [List.cons_append, List.takeWhile_cons, List.dropWhile_cons, hc, if_true]
    exact ⟨by rw [ihr.1], by rw [ihr.2]⟩

theorem matchPartAt_key_tag (p b : Nat) :
    matchPartAt (lbrace :: ("part=".data ++ padDec 5 p ++ keySegB ++ padDec 5 b)) =
      some p := by
  unfold matchPartAt
  rw [if_pos]
  · have hsplit : (lbrace :: ("part=".data ++ padDec 5 p ++ keySegB ++ padDec 5 b)).drop 6 =
        padDec 5 p ++ rbrace :: (":batch=".data ++ padDec 5 b) := by
      show ("part=".data ++ padDec 5 p ++ keySegB ++ padDec 5 b).drop 5 = _
      rw [List.append_assoc, List.append_assoc, List.drop_left' (by decide)]
      simp [keySegB]
    rw [hsplit]
    have htw := takeWhile_digit_run (padDec 5 p) rbrace (":batch=".data ++ padDec 5 b)
      (padDec_isDigit 5 p) rbrace_not_digit
    rw [htw.1, htw.2]
    have hne : (padDec 5 p).isEmpty = false := by
      rw [Bool.eq_false_iff]
      intro hcon
      have := List.isEmpty_iff.mp hcon
      have hlen := congrArg List.length this
      simp only [List.length_nil] at hlen
      have := natToDec_length_pos p
      unfold padDec at hlen
      rw [List.length_append] at hlen
      omega
    rw [hne]
    simp [decFromDigits_padDec]
  · show (lbrace :: ("part=".data ++ padDec 5 p ++ keySegB ++ padDec 5 b)).take 6 = _
    show lbrace :: ("part=".data ++ padDec 5 p ++ keySegB ++ padDec 5 b).take 5 = _
    rw [List.append_assoc, List.append_assoc, List.take_left' (by decide)]

theorem searchPartId_skip : ∀ (pre rest : List Char), lbrace ∉ pre →
    searchPartId (pre ++ rest) = searchPartId rest := by
  intro pre
  induction pre with
  | nil => intro rest _; rfl
  | cons c cs ih =>
    intro rest hpre
    have hc : c ≠ lbrace := fun hcon => hpre (hcon ▸ List.mem_cons_self ..)
    show searchPartId (c :: (cs ++ rest)) = _
    simp only [searchPartId, matchPartAt_not_lbrace (cs ++ rest) hc]
    exact ih rest (fun hmem => hpre (List.mem_cons_of_mem _ hmem))

/-- The regex parse recovers the partition id from any key the scheme built,
for any id and batch, provided the namespace prefix contains no brace. -/
theorem searchPartId_key (pfx : String) (p b : Nat) (hpfx : lbrace ∉ pfx.data) :
    searchPartId (makeKey pfx p b).data = some p := by
  have hk : (makeKey pfx p b).data =
      (pfx.data ++ [':']) ++
        (lbrace :: ("part=".data ++ padDec 5 p ++ keySegB ++ padDec 5 b)) := by
    show keyData pfx.data p b = _
    unfold keyData keySegA
    simp [List.append_assoc]
  rw [hk, searchPartId_skip _ _ (by
    intro hmem
    rcases List.mem_append.mp hmem with h | h
    · exact hpfx h
    · simp only [List.mem_singleton] at h
      exact absurd h.symm (by decide))]
  show (match matchPartAt
      (lbrace :: ("part=".data ++ padDec 5 p ++ keySegB ++ padDec 5 b)) with
    | some n => some n
    | none => searchPartId ("part=".data ++ padDec 5 p ++ keySegB ++ padDec 5 b)) =
      some p
  rw [matchPartAt_key_tag]

theorem discover_foldl_mem (q : Nat) :
    ∀ (keys : List String) (acc : List Nat),
      (q ∈ keys.foldl (fun acc2 k =>
          match searchPartId k.data with
          | some p => if p ∈ acc2 then acc2 else p :: acc2
          | none => acc2) acc)
        ↔ (q ∈ acc ∨ ∃ k ∈ keys, searchPartId k.data = some q) := by
  intro keys
  induction keys with
  | nil => intro acc; simp
  | cons k ks ih =>
    intro acc
    rw [List.foldl_cons, ih]
    cases hk : searchPartId k.data with
    | none =>
      constructor
      · rintro (h | ⟨k', hk', hq⟩)
        · exact Or.inl h
        · exact Or.inr ⟨k', List.mem_cons_of_mem _ hk', hq⟩
      · rintro (h | ⟨k', hk', hq⟩)
        · exact Or.inl h
        · rcases List.mem_cons.mp hk' with rfl | hk'
          · rw [hk] at hq
            exact absurd hq (by simp)
          · exact Or.inr ⟨k', hk', hq⟩
    | some p =>
      simp only [show (match some p with
        | some pp => if pp ∈ acc then acc else pp :: acc
        | none => acc) = if p ∈ acc then acc else p :: acc from rfl]
      by_cases hp : p ∈ acc
      · rw [if_pos hp]
        constructor
        · rintro (h | ⟨k', hk', hq⟩)
          · exact Or.inl h
          · exact Or.inr ⟨k', List.mem_cons_of_mem _ hk', hq⟩
        · rintro (h | ⟨k', hk', hq⟩)
          · exact Or.inl h
          · rcases List.mem_cons.mp hk' with rfl | hk'
            · rw [hk] at hq
              have hpq : p = q := by injection hq
              subst hpq
              exact Or.inl hp
            · exact Or.inr ⟨k', hk', hq⟩
      · rw [if_neg hp]
        constructor
        · rintro (h | ⟨k', hk', hq⟩)
          · rcases List.mem_cons.mp h with rfl | h
            · exact Or.inr ⟨k, List.mem_cons_self .., by rw [hk]⟩
            · exact Or.inl h
          · exact Or.inr ⟨k', List.mem_cons_of_mem _ hk', hq⟩
        · rintro (h | ⟨k', hk', hq⟩)
          · exact Or.inl (List.mem_cons_of_mem _ h)
          · rcases List.mem_cons.mp hk' with rfl | hk'
            · rw [hk] at hq
              have hpq : p = q := by injection hq
              subst hpq
              exact Or.inl (List.mem_cons_self ..)
            · exact Or.inr ⟨k', hk', hq⟩

theorem discover_foldl_nodup :
    ∀ (keys : List String) (acc : List Nat), acc.Nodup →
      (keys.foldl (fun acc2 k =>
          match searchPartId k.data with
          | some p => if p ∈ acc2 then acc2 else p :: acc2
          | none => acc2) acc).Nodup := by
  intro keys
  induction keys with
  | nil => intro acc h; exact h
  | cons k ks ih =>
    intro acc hacc
    rw [List.foldl_cons]
    apply ih
    cases hk : searchPartId k.data with
    | none => exact hacc
    | some p =>
      show (if p ∈ acc then acc else p :: acc).Nodup
      by_cases hp : p ∈ acc
      · rw [if_pos hp]
        exact hacc
      · rw [if_neg hp]
        exact List.nodup_cons.mpr ⟨hp, hacc⟩

/-- C7 (discovery completeness): over any set of scheme-written keys, paged
arbitrarily by the scan cursor, `discover_partitions` returns exactly the
sorted, duplicate-free set of partition ids occurring in those keys —
independent of page size and paging — and returns the empty list (not an
error) when nothing was written.  The prefix must not itself contain the
routing-tag opener. -/
theorem discover_partitions_complete (pfx : String) (addrs : List (Nat × Nat))
    (pages : List (List String)) (hpfx : lbrace ∉ pfx.data)
    (hpages : pages.flatten = addrs.map (fun a => makeKey pfx a.1 a.2)) :
    (discoverPartitions pages).Sorted (· ≤ ·)
      ∧ (discoverPartitions pages).Nodup
      ∧ (∀ q, q ∈ discoverPartitions pages ↔ q ∈ addrs.map Prod.fst)
      ∧ (addrs = [] → discoverPartitions pages = []) := by
  have hfold : (pages.foldl (fun acc page =>
      page.foldl (fun acc2 k =>
        match searchPartId k.data with
        | some p => if p ∈ acc2 then acc2 else p :: acc2
        | none => acc2) acc) []) =
      (pages.flatten.foldl (fun acc2 k =>
        match searchPartId k.data with
        | some p => if p ∈ acc2 then acc2 else p :: acc2
        | none => acc2) []) := by
    rw [List.foldl_flatten]
  have hperm := List.perm_insertionSort (α := Nat) (· ≤ ·)
    (pages.foldl (fun acc page =>
      page.foldl (fun acc2 k =>
        match searchPartId k.data with
        | some p => if p ∈ acc2 then acc2 else p :: acc2
        | none => acc2) acc) [])
  have hmem : ∀ q, q ∈ discoverPartitions pages ↔ q ∈ addrs.map Prod.fst := by
    intro q
    unfold discoverPartitions
    rw [hperm.mem_iff, hfold, discover_foldl_mem q (pages.flatten) [], hpages]
    simp only [List.not_mem_nil, false_or]
    constructor
    · rintro ⟨k, hkmem, hkq⟩
      obtain ⟨a, hamem, rfl⟩ := List.mem_map.mp hkmem
      rw [searchPartId_key pfx a.1 a.2 hpfx] at hkq
      have : a.1 = q := by injection hkq
      subst this
      exact List.mem_map.mpr ⟨a, hamem, rfl⟩
    · intro hq
      obtain ⟨a, hamem, rfl⟩ := List.mem_map.mp hq
      exact ⟨makeKey pfx a.1 a.2, List.mem_map.mpr ⟨a, hamem, rfl⟩,
        searchPartId_key pfx a.1 a.2 hpfx⟩
  refine ⟨List.sorted_insertionSort _ _, ?_, hmem, ?_⟩
  · unfold discoverPartitions
    rw [hperm.nodup_iff]
    rw [hfold]
    exact discover_foldl_nodup pages.flatten [] List.nodup_nil
  · intro ha
    subst ha
    rw [List.eq_nil_iff_forall_not_mem]
    intro q hq
    have := (hmem q).mp hq
    simp at this

/-- Write set used by the discovery witness: partitions {0, 3, 7}, with
partition 3 holding two chunks. -/
def wAddrs : List (Nat × Nat) := [(3, 0), (0, 0), (7, 0), (3, 1)]

/-- An uneven paging of the witness write set's keys (page sizes 2, 1, 1). -/
def wPages : List (List String) :=
  [[makeKey "demo:v1" 3 0, makeKey "demo:v1" 0 0], [makeKey "demo:v1" 7 0],
    [makeKey "demo:v1" 3 1]]

/-- C7 witness. -/
theorem discover_partitions_complete_witness :
    (lbrace ∉ "demo:v1".data
      ∧ wPages.flatten = wAddrs.map (fun a => makeKey "demo:v1" a.1 a.2))
    ∧ ((discoverPartitions wPages).Sorted (· ≤ ·)
      ∧ (discoverPartitions wPages).Nodup
      ∧ (7 ∈ discoverPartitions wPages ↔ 7 ∈ wAddrs.map Prod.fst)) :=
  ⟨⟨by decide, by decide⟩,
    have h := discover_partitions_complete "demo:v1" wAddrs wPages (by decide) (by decide)
    ⟨h.1, h.2.1, h.2.2.1 7⟩⟩

/-- Errors a split can surface: the IndexError of reading row 0 of an empty
partition column, or a write task's failure observed at a gather point. -/
inductive SplitError (ε : Type) where
  | indexError
  | writeFailed (e : ε)
deriving DecidableEq, Repr

/-- Whether a settled write task failed. -/
def isFailed {ε : Type} : Except ε Unit → Bool
  | .ok _ => false
  | .error _ => true

/-- The upload loop of `split_ipc_to_redis`: stream the batches in source
order; for each, extract its partition id (IndexError aborts), take and bump
the partition's dense counter, build the key, encode the payload and
dispatch the write task; once at least `batch_gather_size` tasks are pending,
gather them — a failed task's error aborts the split (the first failed task
in submission order determinises `asyncio.gather`'s propagation); after the
loop, gather whatever is still pending, then report the chunk count.
`put k payload` is the settled outcome of `put_one` for that write. -/
def splitLoop {P ε : Type} (pfx : String) (bpp gatherSize : Nat)
    (encode : RecordBatch → P) (put : String → P → Except ε Unit) :
    List RecordBatch → Nat → (Nat → Nat) → List (Except ε Unit) → Nat →
      Except (SplitError ε) Nat
  | [], _, _, pending, count =>
      match pending.find? isFailed with
      | some (.error e) => .error (.writeFailed e)
      | _ => .ok count
  | rb :: rest, i, next, pending, count =>
      match assignedPart bpp i rb with
      | none => .error .indexError
      | some part =>
          let pend2 := pending ++ [put (makeKey pfx part (next part)) (encode rb)]
          if gatherSize ≤ pend2.length then
            match pend2.find? isFailed with
            | some (.error e) => .error (.writeFailed e)
            | _ => splitLoop pfx bpp gatherSize encode put rest (i + 1)
                (fun q => if q = part then next part + 1 else next q) [] (count + 1)
          else
            splitLoop pfx bpp gatherSize encode put rest (i + 1)
              (fun q => if q = part then next part + 1 else next q) pend2 (count + 1)

/-- `split_ipc_to_redis` with the underlying `r.set` outcomes given by
`setCall key payload attempt`: every write goes through
`retry_with_backoff(r.set, key, payload, max_retries=3)` with the default
base delay 1.0 and cap 60.0. -/
def splitToRedis {P E : Type} (pfx : String) (bpp gatherSize : Nat)
    (encode : RecordBatch → P) (setCall : String → P → Nat → Except E Unit)
    (batches : List RecordBatch) : Except (SplitError (Option E)) Nat :=
  splitLoop pfx bpp gatherSize encode
    (fun k payload => (retryWithBackoff (setCall k payload) 3 1 60).1)
    batches 0 (fun _ => 0) [] 0

theorem find_isFailed_none {ε : Type} {pending : List (Except ε Unit)}
    (h : pending.find? isFailed = none) : ∀ r ∈ pending, r = .ok () := by
  intro r hr
  have := List.find?_eq_none.mp h r hr
  cases r with
  | ok u => cases u; rfl
  | error e => exact absurd rfl this

theorem splitLoop_ok {P ε : Type} (pfx : String) (bpp gatherSize : Nat)
    (encode : RecordBatch → P) (put : String → P → Except ε Unit) :
    ∀ (batches : List RecordBatch) (parts : List Nat) (i : Nat) (next : Nat → Nat)
      (pending : List (Except ε Unit)) (count n : Nat),
      partsOfFrom bpp batches i = some parts →
      splitLoop pfx bpp gatherSize encode put batches i next pending count = .ok n →
      (∀ r ∈ pending, r = .ok ())
        ∧ (∀ w ∈ (numberBatches (parts.zip batches) next).map
            (fun t => (makeKey pfx t.1 t.2.1, encode t.2.2)),
          put w.1 w.2 = .ok ()) := by
  intro batches
  induction batches with
  | nil =>
    intro parts i next pending count n hp hl
    simp only [partsOfFrom, Option.some.injEq] at hp
    subst hp
    refine ⟨?_, by simp [numberBatches]⟩
    simp only [splitLoop] at hl
    cases hf : pending.find? isFailed with
    | none => exact find_isFailed_none hf
    | some r =>
      cases r with
      | ok u =>
        have := List.find?_some hf
        simp [isFailed] at this
      | error e =>
        rw [hf] at hl
        simp at hl
  | cons rb rest ih =>
    intro parts i next pending count n hp hl
    simp only [partsOfFrom] at hp
    rw [Option.bind_eq_some] at hp
    obtain ⟨p, hpa, hp2⟩ := hp
    rw [Option.map_eq_some'] at hp2
    obtain ⟨ps, hps, rfl⟩ := hp2
    simp only [splitLoop] at hl
    rw [hpa] at hl
    simp only [] at hl
    by_cases hg : gatherSize ≤ (pending ++ [put (makeKey pfx p (next p)) (encode rb)]).length
    · rw [if_pos hg] at hl
      have hpendOK : ∀ r ∈ pending ++ [put (makeKey pfx p (next p)) (encode rb)],
          r = .ok () := by
        cases hf : (pending ++ [put (makeKey pfx p (next p)) (encode rb)]).find? isFailed with
        | none => exact find_isFailed_none hf
        | some r =>
          cases r with
          | ok u =>
            have := List.find?_some hf
            simp [isFailed] at this
          | error e =>
            rw [hf] at hl
            simp at hl
      have hrec : splitLoop pfx bpp gatherSize encode put rest (i + 1)
          (fun q => if q = p then next p + 1 else next q) [] (count + 1) = .ok n := by
        cases hf : (pending ++ [put (makeKey pfx p (next p)) (encode rb)]).find? isFailed with
        | none =>
          rw [hf] at hl
          exact hl
        | some r =>
          cases r with
          | ok u =>
            have := List.find?_some hf
            simp [isFailed] at this
          | error e =>
            rw [hf] at hl
            simp at hl
      have hih := ih ps (i + 1) (fun q => if q = p then next p + 1 else next q)
        [] (count + 1) n hps hrec
      refine ⟨fun r hr => hpendOK r (List.mem_append_left _ hr), ?_⟩
      intro w hw
      rw [List.zip_cons_cons] at hw
      simp only [numberBatches, List.map_cons, List.mem_cons] at hw
      rcases hw with rfl | hw
      · exact hpendOK _ (List.mem_append_right _ (List.mem_singleton.mpr rfl))
      · exact hih.2 w hw
    · rw [if_neg hg] at hl
      have hih := ih ps (i + 1) (fun q => if q = p then next p + 1 else next q)
        (pending ++ [put (makeKey pfx p (next p)) (encode rb)]) (count + 1) n hps hl
      refine ⟨fun r hr => hih.1 r (List.mem_append_left _ hr), ?_⟩
      intro w hw
      rw [List.zip_cons_cons] at hw
      simp only [numberBatches, List.map_cons, List.mem_cons] at hw
      rcases hw with rfl | hw
      · exact hih.1 _ (List.mem_append_right _ (List.mem_singleton.mpr rfl))
      · exact hih.2 w hw

/-- `await asyncio.gather(*put_tasks)` with `return_exceptions=False` (the
gather of `split_ipc_to_redis`, line 376), observed along a completion
order: completions are processed one at a time, each settling its task; the
first completed task that raised has its error propagated at that very
moment, without waiting for the remaining completions.  Returns the
propagated error, if any, together with the list of task indices that had
settled when gather returned — a dispatched index missing from that list
was still in flight at propagation time. -/
def gatherEarly {ε : Type} (tasks : List (Except ε Unit)) :
    List Nat → List Nat → Option ε × List Nat
  | [], settled => (none, settled)
  | i :: rest, settled =>
      match tasks[i]? with
      | some (.error e) => (some e, settled ++ [i])
      | _ => gatherEarly tasks rest (settled ++ [i])

theorem gatherEarly_first_error {ε : Type} (tasks : List (Except ε Unit))
    (i : Nat) (e : ε) (post : List Nat) (hi : tasks[i]? = some (.error e)) :
    ∀ (pre settled : List Nat),
      (∀ j ∈ pre, ∀ e2 : ε, tasks[j]? ≠ some (.error e2)) →
      gatherEarly tasks (pre ++ i :: post) settled =
        (some e, settled ++ pre ++ [i]) := by
  intro pre
  induction pre with
  | nil =>
    intro settled _
    show (match tasks[i]? with
      | some (.error e3) => (some e3, settled ++ [i])
      | _ => gatherEarly tasks post (settled ++ [i])) = (some e, settled ++ [] ++ [i])
    rw [hi]
    simp
  | cons j pre2 ih =>
    intro settled hpre
    have hj := hpre j (List.mem_cons_self ..)
    have hstep : gatherEarly tasks ((j :: pre2) ++ i :: post) settled =
        gatherEarly tasks (pre2 ++ i :: post) (settled ++ [j]) := by
      show (match tasks[j]? with
        | some (.error e3) => (some e3, settled ++ [j])
        | _ => gatherEarly tasks (pre2 ++ i :: post) (settled ++ [j])) = _
      cases htj : tasks[j]? with
      | none => rfl
      | some r =>
        cases r with
        | ok u => rfl
        | error e2 => exact absurd htj (hj e2)
    rw [hstep, ih (settled ++ [j])
      (fun q hq e2 => hpre q (List.mem_cons_of_mem _ hq) e2)]
    simp

/-- One-batch dataset used by the write-failure witness. -/
def wBatchesB : List RecordBatch := [⟨[("partition", [0])]⟩]

/-- Two-batch, one-partition dataset: both write tasks of the split land in
one gather group. -/
def wBatchesD : List RecordBatch :=
  [⟨[("partition", [0])]⟩, ⟨[("partition", [0]), ("w", [1])]⟩]

/-- `SET` outcomes for the C8 counterexample: the write of chunk (0,0)
fails on every attempt (its retry budget will be exhausted); the write of
chunk (0,1) always succeeds. -/
def wSetCall : String → Nat → Nat → Except Nat Unit := fun k _ _ =>
  if k = makeKey "d" 0 0 then .error 0 else .ok ()

/-- C8 counterexample: a split dispatches two writes in one gather group;
the first write's retry budget is exhausted while the second write
succeeds.  The split fails as claimed, but at the moment the gather
propagates the fatal error (the failing task's completion), the group's
other already-dispatched write task (index 1) has NOT settled — refuting
"propagates the first fatal error only after allowing all
already-dispatched write tasks to settle". -/
theorem split_error_propagates_while_unsettled :
    splitWritesOf "d" 1 RecordBatch.numRows wBatchesD =
        some [(makeKey "d" 0 0, 1), (makeKey "d" 0 1, 1)]
      ∧ (∃ er, splitToRedis "d" 1 2 RecordBatch.numRows wSetCall wBatchesD = .error er)
      ∧ gatherEarly
          [(retryWithBackoff (wSetCall (makeKey "d" 0 0) 1) 3 1 60).1,
            (retryWithBackoff (wSetCall (makeKey "d" 0 1) 1) 3 1 60).1]
          [0, 1] [] = (some (some 0), [0])
      ∧ (1 : Nat) ∉ ([0] : List Nat) :=
  ⟨by decide, ⟨SplitError.writeFailed (some 0), rfl⟩, rfl, by decide⟩

/-- C8 amended: if any chunk's write fails permanently — its three retry
attempts exhausted so `put_one` surfaces the failure — then
`split_ipc_to_redis` fails as a whole: it returns an error, never a success
with a silently incomplete write set.  The first fatal error raised at a
gather point is propagated immediately when the failing task completes:
the tasks that completed before it have settled, but gather does not wait
for the group's remaining already-dispatched write tasks to settle before
propagating. -/
theorem split_fails_write_failure_immediate_propagation {P E : Type}
    (pfx : String) (bpp gatherSize : Nat) (encode : RecordBatch → P)
    (setCall : String → P → Nat → Except E Unit) (batches : List RecordBatch)
    (writes : List (String × P))
    (hw : splitWritesOf pfx bpp encode batches = some writes)
    (hfail : ∃ w ∈ writes, ∃ eo,
      (retryWithBackoff (setCall w.1 w.2) 3 1 60).1 = .error eo) :
    (∃ er, splitToRedis pfx bpp gatherSize encode setCall batches = .error er)
      ∧ (∀ (tasks : List (Except (Option E) Unit)) (pre : List Nat) (i : Nat)
          (post : List Nat) (e : Option E),
          tasks[i]? = some (.error e) →
          (∀ j ∈ pre, ∀ e2 : Option E, tasks[j]? ≠ some (.error e2)) →
          gatherEarly tasks (pre ++ i :: post) [] = (some e, pre ++ [i])) := by
  constructor
  · cases hres : splitToRedis pfx bpp gatherSize encode setCall batches with
    | error er => exact ⟨er, rfl⟩
    | ok n =>
      exfalso
      unfold splitWritesOf at hw
      rw [Option.map_eq_some'] at hw
      obtain ⟨parts, hparts, rfl⟩ := hw
      have hok := splitLoop_ok pfx bpp gatherSize encode
        (fun k payload => (retryWithBackoff (setCall k payload) 3 1 60).1)
        batches parts 0 (fun _ => 0) [] 0 n hparts hres
      obtain ⟨w, hwmem, eo, heo⟩ := hfail
      have hcon := hok.2 w hwmem
      simp only [] at hcon
      rw [heo] at hcon
      exact Except.noConfusion hcon
  · intro tasks pre i post e hi hpre
    have := gatherEarly_first_error tasks i e post hi pre [] hpre
    simpa using this

/-- C8 witness: on the two-write group of `wBatchesD`'s split, the failing
write's error is both fatal to the split and propagated with settled set
exactly the completions up to the failure. -/
theorem split_fails_write_failure_immediate_propagation_witness :
    (splitWritesOf "d" 1 RecordBatch.numRows wBatchesD =
        some [(makeKey "d" 0 0, 1), (makeKey "d" 0 1, 1)]
      ∧ (∃ w ∈ ([(makeKey "d" 0 0, 1), (makeKey "d" 0 1, 1)] : List (String × Nat)),
          ∃ eo, (retryWithBackoff (wSetCall w.1 w.2) 3 1 60).1 = .error eo)
      ∧ ([(retryWithBackoff (wSetCall (makeKey "d" 0 0) 1) 3 1 60).1,
            (retryWithBackoff (wSetCall (makeKey "d" 0 1) 1) 3 1 60).1][0]? =
          some (.error (some 0))))
    ∧ ((∃ er, splitToRedis "d" 1 2 RecordBatch.numRows wSetCall wBatchesD = .error er)
      ∧ gatherEarly
          [(retryWithBackoff (wSetCall (makeKey "d" 0 0) 1) 3 1 60).1,
            (retryWithBackoff (wSetCall (makeKey "d" 0 1) 1) 3 1 60).1]
          ([] ++ 0 :: [1]) [] = (some (some 0), [] ++ [0])) :=
  ⟨⟨by decide, ⟨(makeKey "d" 0 0, 1), List.mem_cons_self .., some 0, rfl⟩, rfl⟩,
    have h := split_fails_write_failure_immediate_propagation "d" 1 2
      RecordBatch.numRows wSetCall wBatchesD
      [(makeKey "d" 0 0, 1), (makeKey "d" 0 1, 1)] (by decide)
      ⟨(makeKey "d" 0 0, 1), List.mem_cons_self .., some 0, rfl⟩
    ⟨h.1, h.2
      [(retryWithBackoff (wSetCall (makeKey "d" 0 0) 1) 3 1 60).1,
        (retryWithBackoff (wSetCall (makeKey "d" 0 1) 1) 3 1 60).1]
      [] 0 [1] (some 0) rfl (fun j hj => absurd hj (List.not_mem_nil j))⟩⟩

theorem storeOf_makeKey {Payload : Type} (pfx : String) (encode : RecordBatch → Payload)
    (p b : Nat) : ∀ (asg : List (Nat × Nat × RecordBatch)),
    storeOf (asg.map (fun t => (makeKey pfx t.1 t.2.1, encode t.2.2))) (makeKey pfx p b) =
      (asg.find? (fun t => t.1 == p && t.2.1 == b)).map (fun t => encode t.2.2) := by
  intro asg
  induction asg with
  | nil => rfl
  | cons t ts ih =>
    obtain ⟨tp, tb, tx⟩ := t
    unfold storeOf
    simp only [List.map_cons]
    by_cases h : tp = p ∧ tb = b
    · obtain ⟨rfl, rfl⟩ := h
      rw [List.find?_cons_of_pos _ (by simp), List.find?_cons_of_pos _ (by simp)]
      rfl
    · have hkeys : (makeKey pfx tp tb == makeKey pfx p b) = false := by
        rw [beq_eq_false_iff_ne]
        intro hcon
        exact h ((makeKey_injective pfx tp tb p b).mp hcon)
      rw [List.find?_cons_of_neg _ (by simp [hkeys]),
        List.find?_cons_of_neg _ (by
          simp only [Bool.and_eq_true, beq_iff_eq]
          exact fun hcon => h ⟨hcon.1, hcon.2⟩)]
      exact ih

theorem find?_conj_filter {β : Type} (p b : Nat) : ∀ (l : List (Nat × Nat × β)),
    l.find? (fun t => t.1 == p && t.2.1 == b) =
      (l.filter (fun t => t.1 == p)).find? (fun t => t.2.1 == b) := by
  intro l
  induction l with
  | nil => rfl
  | cons t ts ih =>
    by_cases hp : t.1 = p
    · rw [List.filter_cons_of_pos (by simp [hp])]
      by_cases hb : t.2.1 = b
      · rw [List.find?_cons_of_pos _ (by simp [hp, hb]),
          List.find?_cons_of_pos _ (by simp [hb])]
      · rw [List.find?_cons_of_neg _ (by simp [hb]),
          List.find?_cons_of_neg _ (by simp [hb])]
        exact ih
    · rw [List.filter_cons_of_neg (by simp [hp]),
        List.find?_cons_of_neg _ (by simp [hp])]
      exact ih

theorem find?_zip_range' {β : Type} (b : Nat) : ∀ (l : List β) (s : Nat),
    s ≤ b → b < s + l.length →
      ((List.range' s l.length).zip l).find? (fun t => t.1 == b) =
        (l[b - s]?).map (fun x => (b, x)) := by
  intro l
  induction l with
  | nil =>
    intro s h1 h2
    exfalso
    simp at h2
    omega
  | cons x xs ih =>
    intro s h1 h2
    rw [List.length_cons, List.range'_succ, List.zip_cons_cons]
    by_cases hs : s = b
    · subst hs
      rw [List.find?_cons_of_pos _ (by simp)]
      have : s - s = 0 := by omega
      rw [this, List.getElem?_cons_zero]
      rfl
    · rw [List.find?_cons_of_neg _ (by simp [hs])]
      have harith : b - s = (b - (s + 1)) + 1 := by omega
      rw [harith, List.getElem?_cons_succ]
      exact ih (s + 1) (by omega) (by simp at h2; omega)

theorem filterMap_range_getElem {α : Type} : ∀ l : List α,
    (List.range l.length).filterMap (fun b => l[b]?) = l := by
  intro l
  induction l with
  | nil => rfl
  | cons x xs ih =>
    rw [List.length_cons, List.range_succ_eq_map, List.filterMap_cons]
    simp only [List.getElem?_cons_zero]
    rw [List.filterMap_map]
    have : ((fun b => (x :: xs)[b]?) ∘ Nat.succ) = (fun b => xs[b]?) := by
      funext i
      simp [Function.comp, List.getElem?_cons_succ]
    rw [this, ih]

theorem filterMap_flatMap {α β γ : Type} (l : List α) (f : α → List β)
    (g : β → Option γ) :
    (l.flatMap f).filterMap g = l.flatMap (fun a => (f a).filterMap g) := by
  induction l with
  | nil => rfl
  | cons a as ih =>
    rw [List.flatMap_cons, List.flatMap_cons, List.filterMap_append, ih]

/-- Reading batches `0..N-1` of one partition back out of the split's write
set returns exactly that partition's source batches, in source order. -/
theorem readback_partition {Payload : Type} (pfx : String)
    (encode : RecordBatch → Payload) (decode : Payload → RecordBatch)
    (hcodec : ∀ rb, decode (encode rb) = rb)
    (tagged : List (Nat × RecordBatch)) (p : Nat) :
    (List.range ((tagged.map Prod.fst).count p)).filterMap
        (fun b => (storeOf ((numberBatches tagged (fun _ => 0)).map
          (fun t => (makeKey pfx t.1 t.2.1, encode t.2.2)))
          (makeKey pfx p b)).map decode) =
      (tagged.filter (fun t => t.1 == p)).map (fun t => t.2) := by
  set M := (tagged.filter (fun t => t.1 == p)).map (fun t => t.2) with hMdef
  have hMlen : M.length = (tagged.map Prod.fst).count p := by
    rw [hMdef, List.length_map, count_eq_filter_length]
  have hzip : ((numberBatches tagged (fun _ => 0)).filter
      (fun t => t.1 == p)).map (fun t => t.2) = (List.range' 0 M.length).zip M := by
    rw [hMlen]
    exact numberBatches_filter (β := RecordBatch) p tagged (fun _ => 0)
  have hstore : ∀ b, b < M.length →
      storeOf ((numberBatches tagged (fun _ => 0)).map
          (fun t => (makeKey pfx t.1 t.2.1, encode t.2.2))) (makeKey pfx p b) =
        (M[b]?).map encode := by
    intro b hb
    rw [storeOf_makeKey, find?_conj_filter]
    have hfm := List.find?_map (p := fun u : Nat × RecordBatch => u.1 == b)
      (fun t : Nat × Nat × RecordBatch => t.2)
      ((numberBatches tagged (fun _ => 0)).filter (fun t => t.1 == p))
    rw [hzip] at hfm
    have hcomp : ((fun u : Nat × RecordBatch => u.1 == b) ∘
        (fun t : Nat × Nat × RecordBatch => t.2)) =
        (fun t : Nat × Nat × RecordBatch => t.2.1 == b) := rfl
    rw [hcomp] at hfm
    rw [find?_zip_range' b M 0 (by omega) (by omega), Nat.sub_zero,
      List.getElem?_eq_getElem hb] at hfm
    cases hff : ((numberBatches tagged (fun _ => 0)).filter
        (fun t => t.1 == p)).find? (fun t => t.2.1 == b) with
    | none =>
      rw [hff] at hfm
      simp at hfm
    | some t =>
      rw [hff] at hfm
      simp only [Option.map_some'] at hfm
      have ht2 : t.2 = (b, M[b]) := (Option.some.inj hfm).symm
      rw [List.getElem?_eq_getElem hb]
      simp only [Option.map_some']
      rw [ht2]
  rw [← hMlen]
  have hcong : ∀ b ∈ List.range M.length,
      (storeOf ((numberBatches tagged (fun _ => 0)).map
          (fun t => (makeKey pfx t.1 t.2.1, encode t.2.2)))
          (makeKey pfx p b)).map decode = M[b]? := by
    intro b hbr
    have hb : b < M.length := List.mem_range.mp hbr
    rw [hstore b hb]
    cases hgb : M[b]? with
    | none => rfl
    | some x =>
      simp only [Option.map_some']
      rw [hcodec]
  rw [List.filterMap_congr hcong]
  exact filterMap_range_getElem M

theorem flatMap_congr_of_not_mem {β : Type} (q : Nat) (x : β)
    (F : Nat → List β) : ∀ (ps : List Nat), q ∉ ps →
      ps.flatMap (fun r => if r = q then x :: F r else F r) = ps.flatMap F := by
  intro ps
  induction ps with
  | nil => intro _; rfl
  | cons p0 ps' ih =>
    intro hq
    rw [List.flatMap_cons, List.flatMap_cons]
    have hp0 : p0 ≠ q := fun hcon => hq (hcon ▸ List.mem_cons_self ..)
    rw [if_neg hp0, ih (fun hmem => hq (List.mem_cons_of_mem _ hmem))]

theorem flatMap_insert_perm {β : Type} (q : Nat) (x : β) (F : Nat → List β) :
    ∀ (ps : List Nat), ps.Nodup → q ∈ ps →
      (ps.flatMap (fun r => if r = q then x :: F r else F r)).Perm
        (x :: ps.flatMap F) := by
  intro ps
  induction ps with
  | nil => intro _ hq; exact absurd hq (List.not_mem_nil q)
  | cons p0 ps' ih =>
    intro hnd hq
    rw [List.flatMap_cons, List.flatMap_cons]
    by_cases hp0 : p0 = q
    · subst hp0
      rw [if_pos rfl]
      rw [flatMap_congr_of_not_mem p0 x F ps' (List.nodup_cons.mp hnd).1]
      exact List.Perm.refl _
    · rw [if_neg hp0]
      have hq' : q ∈ ps' := by
        rcases List.mem_cons.mp hq with h | h
        · exact absurd h.symm hp0
        · exact h
      have hrec := ih (List.nodup_cons.mp hnd).2 hq'
      exact (hrec.append_left (F p0)).trans List.perm_middle

theorem flatMap_congr_mem {α β : Type} (f g : α → List β) :
    ∀ (l : List α), (∀ a ∈ l, f a = g a) → l.flatMap f = l.flatMap g := by
  intro l
  induction l with
  | nil => intro _; rfl
  | cons a as ih =>
    intro h
    rw [List.flatMap_cons, List.flatMap_cons, h a (List.mem_cons_self ..),
      ih (fun a ha => h a (List.mem_cons_of_mem _ ha))]

/-- Decomposing a tagged list by partition: concatenating, over all
partitions of a duplicate-free cover, the sublists of one partition each is a
permutation of the whole list. -/
theorem flatMap_filter_perm {β : Type} :
    ∀ (tagged : List (Nat × β)) (ps : List Nat), ps.Nodup →
      (∀ t ∈ tagged, t.1 ∈ ps) →
      (ps.flatMap (fun p => (tagged.filter (fun t => t.1 == p)).map
        (fun t => t.2))).Perm (tagged.map (fun t => t.2)) := by
  intro tagged
  induction tagged with
  | nil =>
    intro ps _ _
    simp
  | cons t ts ih =>
    intro ps hnd hmem
    obtain ⟨q, x⟩ := t
    have hq : q ∈ ps := hmem (q, x) (List.mem_cons_self ..)
    have hfun : (fun p => (((q, x) :: ts).filter (fun t => t.1 == p)).map
        (fun t => t.2)) = (fun p => if p = q
          then x :: (ts.filter (fun t => t.1 == p)).map (fun t => t.2)
          else (ts.filter (fun t => t.1 == p)).map (fun t => t.2)) := by
      funext r
      by_cases hr : r = q
      · subst hr
        rw [List.filter_cons_of_pos (by simp), List.map_cons, if_pos rfl]
      · rw [List.filter_cons_of_neg (by
          simp only [beq_iff_eq]
          exact fun hcon => hr hcon.symm), if_neg hr]
    rw [hfun, List.map_cons]
    exact (flatMap_insert_perm q x _ ps hnd hq).trans
      ((ih ps hnd (fun u hu => hmem u (List.mem_cons_of_mem _ hu))).cons x)

/-- C1 (round-trip): split a dataset of `numParts` partitions with
`batchesPerPart` batches each into the store, then read all `numParts`
partitions back with `batches_per_part = batchesPerPart`: the blocks of the
reassembled table are a permutation of the source batches — every batch with
all its columns and values, each exactly once — so the total row count, the
column set and the column values all match the original; this holds for any
codec satisfying decode-after-encode identity (any supported compression
mode) and any pipeline width. -/
theorem split_read_round_trip {Payload : Type} (pfx : String) (bpp : Nat)
    (encode : RecordBatch → Payload) (decode : Payload → RecordBatch)
    (batches : List RecordBatch) (parts : List Nat)
    (writes : List (String × Payload)) (numParts batchesPerPart pipeline : Nat)
    (hcodec : ∀ rb, decode (encode rb) = rb)
    (hparts : partsOf bpp batches = some parts)
    (hw : splitWritesOf pfx bpp encode batches = some writes)
    (hlt : ∀ p ∈ parts, p < numParts)
    (hcount : ∀ p, p < numParts → parts.count p = batchesPerPart)
    (hpipe : 1 ≤ pipeline) :
    ((readFromRedis decode (storeOf writes) pfx (List.range numParts)
        batchesPerPart pipeline).blocks).Perm batches
      ∧ ((readFromRedis decode (storeOf writes) pfx (List.range numParts)
            batchesPerPart pipeline).blocks.map RecordBatch.numRows).sum =
          (batches.map RecordBatch.numRows).sum := by
  rw [splitWritesOf_eq pfx bpp encode batches parts hparts, Option.some.injEq] at hw
  subst hw
  have hlen : parts.length = batches.length := partsOfFrom_length bpp batches 0 parts hparts
  have htfst : (parts.zip batches).map Prod.fst = parts :=
    List.map_fst_zip parts batches (le_of_eq hlen)
  have htsnd : (parts.zip batches).map Prod.snd = batches :=
    List.map_snd_zip parts batches (le_of_eq hlen.symm)
  have hblocks : (readFromRedis decode
      (storeOf ((numberBatches (parts.zip batches) (fun _ => 0)).map
        (fun t => (makeKey pfx t.1 t.2.1, encode t.2.2))))
      pfx (List.range numParts) batchesPerPart pipeline).blocks =
      (List.range numParts).flatMap
        (fun p => ((parts.zip batches).filter (fun t => t.1 == p)).map
          (fun t => t.2)) := by
    rw [readFromRedis_spec _ _ _ _ _ _ hpipe]
    show (orderedKeys pfx (List.range numParts) batchesPerPart).filterMap _ = _
    unfold orderedKeys
    rw [filterMap_flatMap]
    apply flatMap_congr_mem
    intro p hpr
    have hp : p < numParts := List.mem_range.mp hpr
    rw [List.filterMap_map]
    have hbpp : batchesPerPart = ((parts.zip batches).map Prod.fst).count p := by
      rw [htfst, hcount p hp]
    rw [hbpp]
    exact readback_partition pfx encode decode hcodec (parts.zip batches) p
  rw [hblocks]
  have hperm : ((List.range numParts).flatMap
      (fun p => ((parts.zip batches).filter (fun t => t.1 == p)).map
        (fun t => t.2))).Perm batches := by
    have := flatMap_filter_perm (parts.zip batches) (List.range numParts)
      (List.nodup_range numParts)
      (fun t ht => by
        rw [List.mem_range]
        apply hlt
        rw [← htfst]
        exact List.mem_map_of_mem Prod.fst ht)
    rw [htsnd] at this
    exact this
  exact ⟨hperm, (hperm.map RecordBatch.numRows).sum_eq⟩

/-- Round-trip witness dataset: 2 partitions with 2 batches each, partitions
interleaved 1, 0, 0, 1 in the source stream. -/
def wBatchesC : List RecordBatch :=
  [⟨[("partition", [1]), ("v", [1, 2])]⟩, ⟨[("partition", [0]), ("v", [3])]⟩,
    ⟨[("partition", [0]), ("v", [4, 5, 6])]⟩, ⟨[("partition", [1]), ("v", [7])]⟩]

/-- The write set the round-trip witness split produces (identity codec). -/
def wWritesC : List (String × RecordBatch) :=
  [(makeKey "d" 1 0, ⟨[("partition", [1]), ("v", [1, 2])]⟩),
    (makeKey "d" 0 0, ⟨[("partition", [0]), ("v", [3])]⟩),
    (makeKey "d" 0 1, ⟨[("partition", [0]), ("v", [4, 5, 6])]⟩),
    (makeKey "d" 1 1, ⟨[("partition", [1]), ("v", [7])]⟩)]

/-- C1 witness. -/
theorem split_read_round_trip_witness :
    ((∀ rb : RecordBatch, id (id rb) = rb)
      ∧ partsOf 2 wBatchesC = some [1, 0, 0, 1]
      ∧ splitWritesOf "d" 2 id wBatchesC = some wWritesC
      ∧ (∀ p ∈ ([1, 0, 0, 1] : List Nat), p < 2)
      ∧ (∀ p, p < 2 → ([1, 0, 0, 1] : List Nat).count p = 2)
      ∧ (1 : Nat) ≤ 1)
    ∧ (((readFromRedis id (storeOf wWritesC) "d" (List.range 2) 2 1).blocks).Perm
          wBatchesC
      ∧ (((readFromRedis id (storeOf wWritesC) "d" (List.range 2) 2 1).blocks).map
            RecordBatch.numRows).sum = (wBatchesC.map RecordBatch.numRows).sum) :=
  ⟨⟨fun _ => rfl, by decide, by decide, by decide, by decide, by decide⟩,
    split_read_round_trip "d" 2 id id wBatchesC [1, 0, 0, 1] wWritesC 2 2 1
      (fun _ => rfl) (by decide) (by decide) (by decide) (by decide) (by decide)⟩
